import Mathlib

/-!
# Verification of the animation clock in `src/anim.rs`

Shallow embedding of the `AsepriteAnimation` component and its operations
(`get_first_frame`, `next_frame`, `update`, `play`, `pause`, `toggle`,
`is_paused`).  Time quantities (`Duration` values and the per-frame
`delay_ms` entries) are modelled as natural numbers: Rust `Duration`
arithmetic on these paths is exact non-negative integer arithmetic
(`+=`, `-=` under a `>=` guard), so `Nat` is faithful.  The `usize → u16`
casts in the range-containment tests are modelled explicitly as `% 65536`.
The `while` loop of `update` is modelled with explicit fuel, returning
`none` when the fuel is exhausted (the Rust loop has no bound of its own).
-/

namespace BevyAseprite

/-- Playback direction of a tag, `reader::raw::AsepriteAnimationDirection`. -/
inductive AsepriteAnimationDirection
  | Forward
  | Reverse
  | PingPong
deriving DecidableEq

/-- Modelled from the spec: the **TagRange** record `{start, end, direction}`
supplied by the host asset layer (`bevy_aseprite_reader`, not under `src/`);
`frames` is a `Range<u16>`, read through `.start` / `.end` / `.contains`. -/
structure TagRange where
  start : Nat
  end_ : Nat
  direction : AsepriteAnimationDirection
deriving DecidableEq

/-- Modelled from the spec: the **FrameTable** interface consumed per update
call — `frame_count`, `duration(i)` (= `frame_infos[i].delay_ms`), and zero
or one TagRange lookup by name (`info.tags.get`).  `AsepriteInfo` itself is
defined outside `src/`. -/
structure AsepriteInfo where
  tags : String → Option TagRange
  frame_count : Nat
  duration : Nat → Nat

/-- The clock component `AsepriteAnimation` from `src/anim.rs`. -/
structure AsepriteAnimation where
  is_playing : Bool
  tag : Option String
  current_frame : Nat
  forward : Bool
  time_elapsed : Nat
  tag_changed : Bool
deriving DecidableEq

/-- The `usize as u16` truncating cast. -/
def toU16 (n : Nat) : Nat := n % 65536

/-- Containment test `Range<u16>::contains` applied to the tag's `frames` range. -/
def rangeContains (r : TagRange) (x : Nat) : Bool :=
  decide (r.start ≤ x ∧ x < r.end_)

/-- Subtraction `usize::checked_sub`. -/
def checkedSub (a b : Nat) : Option Nat :=
  if b ≤ a then some (a - b) else none

namespace AsepriteAnimation

/-- Constructor `AsepriteAnimation::tag`: seeds only the tag name, all
other fields `Default` (false / 0). -/
def tagged (t : String) : AsepriteAnimation :=
  { is_playing := false, tag := some t, current_frame := 0,
    forward := false, time_elapsed := 0, tag_changed := false }

/-- Method `get_first_frame`: first frame of the tag, or 0 if no tag or the tag
name is absent from the table (the `error!` diagnostic is a log side
effect, not state). -/
def get_first_frame (s : AsepriteAnimation) (info : AsepriteInfo) : Nat :=
  match s.tag with
  | some tagName =>
    match info.tags tagName with
    | none => 0
    | some tag => tag.start
  | none => 0

/-- Method `next_frame`: one advance step, transcribed branch by branch from
`src/anim.rs` lines 64–126, including the `as u16` casts, `checked_sub`,
`saturating_sub` (Nat subtraction) and the unresolved-tag early return. -/
def next_frame (s : AsepriteAnimation) (info : AsepriteInfo) : AsepriteAnimation :=
  match s.tag with
  | some tagName =>
    match info.tags tagName with
    | none => s
    | some tag =>
      let range := tag
      match tag.direction with
      | .Forward =>
        let nf := s.current_frame + 1
        if rangeContains range (toU16 nf) then
          { s with current_frame := nf }
        else
          { s with current_frame := range.start }
      | .Reverse =>
        match checkedSub s.current_frame 1 with
        | some nf =>
          if rangeContains range (toU16 nf) then
            { s with current_frame := nf }
          else
            { s with current_frame := range.end_ - 1 }
        | none => { s with current_frame := range.end_ - 1 }
      | .PingPong =>
        if s.forward then
          let nf := s.current_frame + 1
          if rangeContains range (toU16 nf) then
            { s with current_frame := nf }
          else
            { s with current_frame := nf - 1, forward := false }
        else
          let s1 :=
            match checkedSub s.current_frame 1 with
            | some nf =>
              if rangeContains range (toU16 nf) then
                { s with current_frame := nf }
              else s
            | none => s
          { s1 with current_frame := s1.current_frame + 1, forward := true }
  | none =>
    { s with current_frame := (s.current_frame + 1) % info.frame_count }

/-- Method `current_frame_duration`: `frame_infos[current_frame].delay_ms`. -/
def current_frame_duration (s : AsepriteAnimation) (info : AsepriteInfo) : Nat :=
  info.duration s.current_frame

/-- The `while self.time_elapsed >= current_frame_duration` loop of
`update`, with explicit fuel; `none` means the loop had not exited after
`fuel` iterations. -/
def updateLoop (info : AsepriteInfo) :
    Nat → AsepriteAnimation → Bool → Option (AsepriteAnimation × Bool)
  | 0, _, _ => none
  | fuel + 1, s, frame_changed =>
    if s.current_frame_duration info ≤ s.time_elapsed then
      let s1 := { s with time_elapsed := s.time_elapsed - s.current_frame_duration info }
      updateLoop info fuel (s1.next_frame info) true
    else
      some (s, frame_changed)

/-- Method `update`: add `dt` to `time_elapsed`, then catch up whole frames. -/
def update (s : AsepriteAnimation) (info : AsepriteInfo) (dt : Nat)
    (fuel : Nat) : Option (AsepriteAnimation × Bool) :=
  updateLoop info fuel { s with time_elapsed := s.time_elapsed + dt } false

/-- Method `play`. -/
def play (s : AsepriteAnimation) : AsepriteAnimation :=
  { s with is_playing := true }

/-- Method `pause`. -/
def pause (s : AsepriteAnimation) : AsepriteAnimation :=
  { s with is_playing := false }

/-- Method `toggle`. -/
def toggle (s : AsepriteAnimation) : AsepriteAnimation :=
  { s with is_playing := !s.is_playing }

/-- Method `is_paused`. -/
def is_paused (s : AsepriteAnimation) : Bool :=
  !s.is_playing

end AsepriteAnimation

open AsepriteAnimation

/-! ## Concrete tables and states used in closed theorems -/

/-- An untagged two-frame table, every frame lasting 100 time units. -/
def infoTwo : AsepriteInfo :=
  { tags := fun _ => none, frame_count := 2, duration := fun _ => 100 }

/-- A paused clock at frame 0 of `infoTwo`. -/
def sPaused : AsepriteAnimation :=
  { is_playing := false, tag := none, current_frame := 0,
    forward := false, time_elapsed := 0, tag_changed := false }

/-- A three-frame table with a PingPong tag `"walk"` over `[0, 3)`. -/
def infoWalk : AsepriteInfo :=
  { tags := fun n => if n = "walk" then some ⟨0, 3, .PingPong⟩ else none,
    frame_count := 3, duration := fun _ => 100 }

/-- A `"walk"`-tagged clock at frame 2, forward bias. -/
def sWalk2 : AsepriteAnimation :=
  { is_playing := true, tag := some "walk", current_frame := 2,
    forward := true, time_elapsed := 0, tag_changed := false }

/-- A one-frame table that records duration 0 for every frame. -/
def infoZero : AsepriteInfo :=
  { tags := fun _ => none, frame_count := 1, duration := fun _ => 0 }


/-- Iterated stepping: `n` successive `next_frame` steps (the frame advances performed by the
catch-up loop, abstracted from the accumulator bookkeeping). -/
def stepIter (info : AsepriteInfo) : Nat → AsepriteAnimation → AsepriteAnimation
  | 0, s => s
  | n + 1, s => stepIter info n (s.next_frame info)

/-- Sequential driving: `n` `update` calls with the same `dt`, each given enough
fuel to terminate on a table of positive durations; `none` if any call
fails to terminate. -/
def updates (info : AsepriteInfo) (dt : Nat) :
    Nat → AsepriteAnimation → Option AsepriteAnimation
  | 0, s => some s
  | n + 1, s =>
    match s.update info dt (s.time_elapsed + dt + 1) with
    | some (s2, _) => updates info dt n s2
    | none => none

/-- States of one clock reachable on a fixed table: a freshly constructed
clock (all fields `Default`; `current_frame` seeded per the spec lifecycle
to 0, or to the resolved tag's range start), closed under the public
mutating operations `play`, `pause`, `toggle` and completed `update`
calls. -/
inductive Reachable (info : AsepriteInfo) : AsepriteAnimation → Prop
  | init_untagged :
      Reachable info
        { is_playing := false, tag := none, current_frame := 0,
          forward := false, time_elapsed := 0, tag_changed := false }
  | init_tagged (t : String) (r : TagRange) (h : info.tags t = some r) :
      Reachable info
        { is_playing := false, tag := some t, current_frame := r.start,
          forward := false, time_elapsed := 0, tag_changed := false }
  | step_play (s : AsepriteAnimation) : Reachable info s → Reachable info s.play
  | step_pause (s : AsepriteAnimation) : Reachable info s → Reachable info s.pause
  | step_toggle (s : AsepriteAnimation) : Reachable info s → Reachable info s.toggle
  | step_update (s s2 : AsepriteAnimation) (dt fuel : Nat) (b : Bool) :
      Reachable info s → s.update info dt fuel = some (s2, b) →
      Reachable info s2

/-- The claimed frame invariant: `current_frame` is a valid table index
and, when the tag resolves, lies inside the tag's range. -/
def Inv (info : AsepriteInfo) (s : AsepriteAnimation) : Prop :=
  s.current_frame < info.frame_count ∧
  ∀ t r, s.tag = some t → info.tags t = some r →
    r.start ≤ s.current_frame ∧ s.current_frame < r.end_

/-- Table-side assumptions: at least one frame; every resolvable tag range
is non-empty, ends inside the table, fits in `u16` (its source type is
`Range<u16>`), and — the amendment forced by the ping-pong counterexample —
spans at least two frames whenever its direction is PingPong. -/
def GoodInfo (info : AsepriteInfo) : Prop :=
  1 ≤ info.frame_count ∧
  ∀ t r, info.tags t = some r →
    r.start < r.end_ ∧ r.end_ ≤ info.frame_count ∧ r.end_ < 65536 ∧
    (r.direction = AsepriteAnimationDirection.PingPong → r.start + 2 ≤ r.end_)

/-- A three-frame table with a single-frame PingPong tag `"p"` over
`[2, 3)` — legal under the claim's assumptions (`start < end ≤
frame_count`). -/
def infoPingOne : AsepriteInfo :=
  { tags := fun n => if n = "p" then some ⟨2, 3, .PingPong⟩ else none,
    frame_count := 3, duration := fun _ => 100 }

/-- The state one completed `update` (dt = 100) reaches from the seeded
initial state of tag `"p"` on `infoPingOne`: `current_frame = 3`, outside
both the range `[2, 3)` and the table `[0, 3)`. -/
def sBadPing : AsepriteAnimation :=
  { is_playing := false, tag := some "p", current_frame := 3,
    forward := true, time_elapsed := 0, tag_changed := false }

/-! ## Shape of a `next_frame` step

`next_frame` only ever rewrites `current_frame` and `forward`; every other
field is carried over unchanged.  This is the workhorse lemma behind the
frame-effect and invariant claims. -/

/-- Frame effect of `next_frame`: it only ever rewrites `current_frame` and `forward`;
`is_playing`, `tag`, `time_elapsed` and `tag_changed` are carried over
unchanged. -/
theorem next_frame_fields (s : AsepriteAnimation) (info : AsepriteInfo) :
    (s.next_frame info).is_playing = s.is_playing ∧
    (s.next_frame info).tag = s.tag ∧
    (s.next_frame info).time_elapsed = s.time_elapsed ∧
    (s.next_frame info).tag_changed = s.tag_changed := by
  unfold AsepriteAnimation.next_frame
  cases htag : s.tag with
  | none => exact ⟨rfl, rfl, rfl, rfl⟩
  | some t =>
    dsimp only
    cases info.tags t with
    | none => exact ⟨rfl, htag, rfl, rfl⟩
    | some r =>
      dsimp only
      cases r.direction with
      | Forward =>
        dsimp only
        by_cases hb : rangeContains r (toU16 (s.current_frame + 1)) = true
        · rw [if_pos hb]; exact ⟨rfl, rfl, rfl, rfl⟩
        · rw [if_neg hb]; exact ⟨rfl, rfl, rfl, rfl⟩
      | Reverse =>
        dsimp only
        cases checkedSub s.current_frame 1 with
        | none => exact ⟨rfl, rfl, rfl, rfl⟩
        | some nf =>
          dsimp only
          by_cases hb : rangeContains r (toU16 nf) = true
          · rw [if_pos hb]; exact ⟨rfl, rfl, rfl, rfl⟩
          · rw [if_neg hb]; exact ⟨rfl, rfl, rfl, rfl⟩
      | PingPong =>
        dsimp only
        by_cases hf : s.forward = true
        · rw [if_pos hf]
          by_cases hb : rangeContains r (toU16 (s.current_frame + 1)) = true
          · rw [if_pos hb]; exact ⟨rfl, rfl, rfl, rfl⟩
          · rw [if_neg hb]; exact ⟨rfl, rfl, rfl, rfl⟩
        · rw [if_neg hf]
          cases checkedSub s.current_frame 1 with
          | none => exact ⟨rfl, htag, rfl, rfl⟩
          | some nf =>
            dsimp only
            by_cases hb : rangeContains r (toU16 nf) = true
            · rw [if_pos hb]; exact ⟨rfl, rfl, rfl, rfl⟩
            · rw [if_neg hb]; exact ⟨rfl, htag, rfl, rfl⟩

theorem next_frame_is_playing (s : AsepriteAnimation) (info : AsepriteInfo) :
    (s.next_frame info).is_playing = s.is_playing :=
  (next_frame_fields s info).1

theorem next_frame_tag (s : AsepriteAnimation) (info : AsepriteInfo) :
    (s.next_frame info).tag = s.tag :=
  (next_frame_fields s info).2.1

theorem next_frame_time_elapsed (s : AsepriteAnimation) (info : AsepriteInfo) :
    (s.next_frame info).time_elapsed = s.time_elapsed :=
  (next_frame_fields s info).2.2.1

theorem next_frame_tag_changed (s : AsepriteAnimation) (info : AsepriteInfo) :
    (s.next_frame info).tag_changed = s.tag_changed :=
  (next_frame_fields s info).2.2.2

/-- Accumulator irrelevance: `next_frame` never reads `time_elapsed`, so stepping a state whose
accumulator was overwritten equals overwriting the accumulator of the
stepped state. -/
theorem next_frame_te (s : AsepriteAnimation) (info : AsepriteInfo) (x : Nat) :
    AsepriteAnimation.next_frame { s with time_elapsed := x } info =
      { s.next_frame info with time_elapsed := x } := by
  unfold AsepriteAnimation.next_frame
  dsimp only
  cases htag : s.tag with
  | none => rfl
  | some t =>
    dsimp only
    cases info.tags t with
    | none =>
      dsimp only
      rw [htag]
    | some r =>
      dsimp only
      cases r.direction with
      | Forward =>
        dsimp only
        by_cases hb : rangeContains r (toU16 (s.current_frame + 1)) = true
        · rw [if_pos hb, if_pos hb]
        · rw [if_neg hb, if_neg hb]
      | Reverse =>
        dsimp only
        cases checkedSub s.current_frame 1 with
        | none => rfl
        | some nf =>
          dsimp only
          by_cases hb : rangeContains r (toU16 nf) = true
          · rw [if_pos hb, if_pos hb]
          · rw [if_neg hb, if_neg hb]
      | PingPong =>
        dsimp only
        by_cases hf : s.forward = true
        · rw [if_pos hf, if_pos hf]
          by_cases hb : rangeContains r (toU16 (s.current_frame + 1)) = true
          · rw [if_pos hb, if_pos hb]
          · rw [if_neg hb, if_neg hb]
        · rw [if_neg hf, if_neg hf]
          cases checkedSub s.current_frame 1 with
          | none =>
            dsimp only
            rw [htag]
          | some nf =>
            dsimp only
            by_cases hb : rangeContains r (toU16 nf) = true
            · rw [if_pos hb, if_pos hb]
            · rw [if_neg hb, if_neg hb]
              dsimp only
              rw [htag]

/-- The catch-up loop only ever returns a state it stopped on with
`time_elapsed < duration(current_frame)`, and it carries `is_playing`,
`tag` and `tag_changed` through untouched. -/
theorem updateLoop_preserves (info : AsepriteInfo) :
    ∀ (fuel : Nat) (s : AsepriteAnimation) (b : Bool)
      (s2 : AsepriteAnimation) (b2 : Bool),
      AsepriteAnimation.updateLoop info fuel s b = some (s2, b2) →
      s2.is_playing = s.is_playing ∧ s2.tag = s.tag ∧
        s2.tag_changed = s.tag_changed ∧
        s2.time_elapsed < info.duration s2.current_frame := by
  intro fuel
  induction fuel with
  | zero =>
    intro s b s2 b2 h
    exact absurd h (by simp [AsepriteAnimation.updateLoop])
  | succ n ih =>
    intro s b s2 b2 h
    unfold AsepriteAnimation.updateLoop at h
    by_cases hc : s.current_frame_duration info ≤ s.time_elapsed
    · rw [if_pos hc] at h
      obtain ⟨h1, h2, h3, h4⟩ := ih _ _ _ _ h
      refine ⟨?_, ?_, ?_, h4⟩
      · exact h1.trans (next_frame_is_playing _ info)
      · exact h2.trans (next_frame_tag _ info)
      · exact h3.trans (next_frame_tag_changed _ info)
    · rw [if_neg hc] at h
      simp only [Option.some.injEq, Prod.mk.injEq] at h
      obtain ⟨rfl, rfl⟩ := h
      refine ⟨rfl, rfl, rfl, ?_⟩
      unfold AsepriteAnimation.current_frame_duration at hc
      omega

/-- With every frame duration positive, `time_elapsed + 1` iterations of
fuel are always enough for the catch-up loop to exit. -/
theorem updateLoop_exit (info : AsepriteInfo)
    (hpos : ∀ i, 0 < info.duration i) :
    ∀ (fuel : Nat) (s : AsepriteAnimation) (b : Bool),
      s.time_elapsed < fuel →
      ∃ s2 b2, AsepriteAnimation.updateLoop info fuel s b = some (s2, b2) := by
  intro fuel
  induction fuel with
  | zero => intro s b h; omega
  | succ n ih =>
    intro s b h
    unfold AsepriteAnimation.updateLoop
    by_cases hc : s.current_frame_duration info ≤ s.time_elapsed
    · rw [if_pos hc]
      apply ih
      rw [next_frame_time_elapsed]
      have hp := hpos s.current_frame
      unfold AsepriteAnimation.current_frame_duration at hc
      dsimp only
      unfold AsepriteAnimation.current_frame_duration
      omega
    · rw [if_neg hc]
      exact ⟨s, b, rfl⟩

/-! ## C1 -/

/-- C1: the claim says `update` is a no-op returning `false` whenever
`is_playing = false`; in the code `update` never reads `is_playing`, so a
paused clock still consumes time and advances: from `sPaused`
(paused, frame 0) with `dt = 100` on `infoTwo`, `update` returns `true`
and moves to frame 1. -/
theorem c1_paused_update_still_advances :
    sPaused.is_playing = false ∧
    sPaused.update infoTwo 100 2 =
      some ({ is_playing := false, tag := none, current_frame := 1,
              forward := false, time_elapsed := 0, tag_changed := false }, true) := by
  constructor
  · rfl
  · rfl

/-! ## C2 -/

/-- C2: first half of the claim holds (from frame 2 forward on PingPong
`[0, 3)` one step clamps to 2 and flips the bias to reverse), but the
second half fails: the next step puts `current_frame` back to 2 (the
reverse branch decrements and then unconditionally increments and restores
forward bias), not to 1 as the claim states. -/
theorem c2_pingpong_second_step_stays_at_2 :
    ((sWalk2.next_frame infoWalk).current_frame = 2 ∧
      (sWalk2.next_frame infoWalk).forward = false) ∧
    ((sWalk2.next_frame infoWalk).next_frame infoWalk).current_frame = 2 ∧
    ((sWalk2.next_frame infoWalk).next_frame infoWalk).forward = true := by
  refine ⟨⟨rfl, rfl⟩, rfl, rfl⟩

/-! ## C8 -/

/-- C8: with a tag name absent from the table, `get_first_frame`
returns 0 and `next_frame` is a no-op on the whole state (the `error!`
diagnostic is a log emission, not state). -/
theorem c8_unresolved_tag_soft (s : AsepriteAnimation) (info : AsepriteInfo)
    (t : String) (htag : s.tag = some t) (hres : info.tags t = none) :
    s.get_first_frame info = 0 ∧ s.next_frame info = s := by
  unfold get_first_frame next_frame
  rw [htag]
  dsimp only
  rw [hres]
  exact ⟨rfl, rfl⟩

/-- Witness for C8 at a concrete clock whose tag `"run"` is not in
`infoTwo`'s (empty) tag table. -/
theorem c8_unresolved_tag_soft_witness :
    (tagged "run").tag = some "run" ∧ infoTwo.tags "run" = none ∧
    ((tagged "run").get_first_frame infoTwo = 0 ∧
      (tagged "run").next_frame infoTwo = tagged "run") :=
  ⟨rfl, rfl, c8_unresolved_tag_soft (tagged "run") infoTwo "run" rfl rfl⟩

/-! ## C7 -/

/-- C7: one Reverse-direction step moves to `current_frame - 1` when
that index exists (no underflow) and lies inside `[start, end)`, and
otherwise wraps to `end - 1`.  The hypothesis `current_frame < 65536`
keeps the `as u16` cast in the containment test the identity. -/
theorem c7_reverse_step (s : AsepriteAnimation) (info : AsepriteInfo)
    (t : String) (r : TagRange) (htag : s.tag = some t)
    (hres : info.tags t = some r) (hdir : r.direction = .Reverse)
    (hcur : s.current_frame < 65536) :
    (s.next_frame info).current_frame =
      if 1 ≤ s.current_frame ∧ r.start ≤ s.current_frame - 1 ∧
          s.current_frame - 1 < r.end_ then
        s.current_frame - 1
      else
        r.end_ - 1 := by
  obtain ⟨rs, re, rd⟩ := r
  simp only at hdir
  subst hdir
  unfold next_frame
  rw [htag]
  dsimp only
  rw [hres]
  dsimp only
  rcases Nat.eq_zero_or_pos s.current_frame with h0 | h1
  · simp [checkedSub, h0]
  · have hsub : checkedSub s.current_frame 1 = some (s.current_frame - 1) := by
      exact if_pos h1
    rw [hsub]
    dsimp only
    have hid : toU16 (s.current_frame - 1) = s.current_frame - 1 :=
      Nat.mod_eq_of_lt (lt_of_le_of_lt (Nat.sub_le _ _) hcur)
    simp only [rangeContains, hid]
    split_ifs with hc hgoal hgoal
    · simp_all
    · simp_all
    · simp_all
    · rfl

/-- Witness for C7: tag range `[2, 5)` in Reverse, `current_frame = 2`;
`current_frame - 1 = 1` is outside the range, so one step wraps to 4. -/
theorem c7_reverse_step_witness :
    (let infoW : AsepriteInfo :=
      { tags := fun n => if n = "back" then some ⟨2, 5, .Reverse⟩ else none,
        frame_count := 5, duration := fun _ => 100 }
    let sW : AsepriteAnimation :=
      { is_playing := true, tag := some "back", current_frame := 2,
        forward := false, time_elapsed := 0, tag_changed := false }
    sW.tag = some "back" ∧ infoW.tags "back" = some ⟨2, 5, .Reverse⟩ ∧
      sW.current_frame < 65536 ∧ (sW.next_frame infoW).current_frame = 4) := by
  refine ⟨rfl, rfl, by decide, ?_⟩
  have h := c7_reverse_step
    { is_playing := true, tag := some "back", current_frame := 2,
      forward := false, time_elapsed := 0, tag_changed := false }
    { tags := fun n => if n = "back" then some ⟨2, 5, .Reverse⟩ else none,
      frame_count := 5, duration := fun _ => 100 }
    "back" ⟨2, 5, .Reverse⟩ rfl rfl rfl (by decide)
  rw [h]
  decide

/-! ## C9 -/

/-- C9: a reverse-biased PingPong step always ends with
`forward = true`, never strictly decreases `current_frame`, and whenever
`current_frame - 1` exists and lies inside the range the step leaves
`current_frame` unchanged (the decrement is undone by the unconditional
increment). -/
theorem c9_pingpong_reverse_bias_never_decreases (s : AsepriteAnimation)
    (info : AsepriteInfo) (t : String) (r : TagRange)
    (htag : s.tag = some t) (hres : info.tags t = some r)
    (hdir : r.direction = .PingPong) (hfwd : s.forward = false)
    (hend : r.end_ < 65536) :
    (s.next_frame info).forward = true ∧
    s.current_frame ≤ (s.next_frame info).current_frame ∧
    (1 ≤ s.current_frame → r.start ≤ s.current_frame - 1 →
      s.current_frame - 1 < r.end_ →
      (s.next_frame info).current_frame = s.current_frame) := by
  obtain ⟨rs, re, rd⟩ := r
  simp only at hdir hend
  subst hdir
  unfold next_frame
  rw [htag]
  dsimp only
  rw [hres]
  dsimp only
  rw [hfwd]
  simp only [Bool.false_eq_true, if_false]
  rcases Nat.eq_zero_or_pos s.current_frame with h0 | h1
  · simp [checkedSub, h0]
  · have hsub : checkedSub s.current_frame 1 = some (s.current_frame - 1) := by
      exact if_pos h1
    rw [hsub]
    dsimp only
    by_cases hb : rangeContains ⟨rs, re, .PingPong⟩ (toU16 (s.current_frame - 1)) = true
    · rw [if_pos hb]
      refine ⟨by trivial, ?_, fun _ _ _ => ?_⟩ <;> dsimp only <;> omega
    · rw [if_neg hb]
      refine ⟨by trivial, by omega, fun hge hs he => absurd ?_ hb⟩
      have hid : toU16 (s.current_frame - 1) = s.current_frame - 1 :=
        Nat.mod_eq_of_lt (lt_of_lt_of_le he (le_of_lt hend))
      rw [hid]
      exact decide_eq_true ⟨hs, he⟩

/-- Witness for C9: PingPong `[0, 3)`, reverse bias at frame 2:
`current_frame - 1 = 1` is in range, so the step keeps frame 2 and sets
the bias forward. -/
theorem c9_pingpong_reverse_bias_never_decreases_witness :
    (let sW : AsepriteAnimation :=
      { is_playing := true, tag := some "walk", current_frame := 2,
        forward := false, time_elapsed := 0, tag_changed := false }
    sW.tag = some "walk" ∧ infoWalk.tags "walk" = some ⟨0, 3, .PingPong⟩ ∧
      sW.forward = false ∧ (3 : Nat) < 65536 ∧
      ((sW.next_frame infoWalk).forward = true ∧
        sW.current_frame ≤ (sW.next_frame infoWalk).current_frame ∧
        (1 ≤ sW.current_frame → (0 : Nat) ≤ sW.current_frame - 1 →
          sW.current_frame - 1 < 3 →
          (sW.next_frame infoWalk).current_frame = sW.current_frame))) :=
  ⟨rfl, rfl, rfl, by decide,
    c9_pingpong_reverse_bias_never_decreases
      { is_playing := true, tag := some "walk", current_frame := 2,
        forward := false, time_elapsed := 0, tag_changed := false }
      infoWalk "walk" ⟨0, 3, .PingPong⟩ rfl rfl rfl rfl (by decide)⟩

/-! ## C3 -/

/-- C3: the claim requires the catch-up loop to be bounded (or the
degenerate table rejected); in the code a zero-duration frame makes the
loop condition `time_elapsed >= duration` permanently true, so `update`
never terminates on `infoZero`: no amount of fuel makes the loop exit. -/
theorem c3_zero_duration_update_never_terminates :
    ∀ (fuel dt : Nat) (s : AsepriteAnimation),
      s.update infoZero dt fuel = none := by
  have hloop : ∀ (fuel : Nat) (s : AsepriteAnimation) (b : Bool),
      AsepriteAnimation.updateLoop infoZero fuel s b = none := by
    intro fuel
    induction fuel with
    | zero => intro s b; rfl
    | succ n ih =>
      intro s b
      unfold AsepriteAnimation.updateLoop
      have h0 : s.current_frame_duration infoZero ≤ s.time_elapsed :=
        Nat.zero_le _
      rw [if_pos h0]
      exact ih _ _
  intro fuel dt s
  unfold AsepriteAnimation.update
  exact hloop _ _ _

/-! ## C5 -/

/-- C5: with every frame duration positive, `update` terminates (fuel
`time_elapsed + dt + 1` always suffices) and the completed call leaves
`0 ≤ time_elapsed < duration(current_frame)` (the lower bound is inherent
to `Nat`, stated for fidelity to the claim). -/
theorem c5_elapsed_strictly_below_duration (s : AsepriteAnimation)
    (info : AsepriteInfo) (dt : Nat)
    (hpos : ∀ i, 0 < info.duration i) :
    ∃ s2 b2, s.update info dt (s.time_elapsed + dt + 1) = some (s2, b2) ∧
      0 ≤ s2.time_elapsed ∧
      s2.time_elapsed < info.duration s2.current_frame := by
  obtain ⟨s2, b2, h⟩ :=
    updateLoop_exit info hpos (s.time_elapsed + dt + 1)
      { s with time_elapsed := s.time_elapsed + dt } false
      (by dsimp only; omega)
  refine ⟨s2, b2, h, Nat.zero_le _, ?_⟩
  exact (updateLoop_preserves info _ _ _ _ _ h).2.2.2

/-- Witness for C5: the all-100 table `infoTwo`, clock `sPaused`, `dt = 0`:
the call completes at once with `time_elapsed = 0 < 100`. -/
theorem c5_elapsed_strictly_below_duration_witness :
    (∀ i, 0 < infoTwo.duration i) ∧
    (∃ s2 b2, sPaused.update infoTwo 0 (sPaused.time_elapsed + 0 + 1) = some (s2, b2) ∧
      0 ≤ s2.time_elapsed ∧
      s2.time_elapsed < infoTwo.duration s2.current_frame) :=
  ⟨fun _ => Nat.succ_pos 99,
    c5_elapsed_strictly_below_duration sPaused infoTwo 0 (fun _ => Nat.succ_pos 99)⟩

/-! ## C10 -/

/-- C10: `play`, `pause` and `toggle` rewrite only `is_playing`
(stated as full record equations carrying every other field over), and no
operation changes `tag` or `tag_changed`: `next_frame` and any completed
`update` call preserve both (the remaining operations `get_first_frame`,
`current_frame`, `is_playing`, `is_paused` take `&self` and cannot write
at all). -/
theorem c10_play_pause_toggle_only_is_playing (s : AsepriteAnimation)
    (info : AsepriteInfo) (dt fuel : Nat) (s2 : AsepriteAnimation) (b2 : Bool)
    (h : s.update info dt fuel = some (s2, b2)) :
    s.play = { s with is_playing := true } ∧
    s.pause = { s with is_playing := false } ∧
    s.toggle = { s with is_playing := !s.is_playing } ∧
    (s.next_frame info).tag = s.tag ∧
    (s.next_frame info).tag_changed = s.tag_changed ∧
    s2.tag = s.tag ∧ s2.tag_changed = s.tag_changed := by
  unfold AsepriteAnimation.update at h
  have hp := updateLoop_preserves info _ _ _ _ _ h
  exact ⟨rfl, rfl, rfl, next_frame_tag s info, next_frame_tag_changed s info,
    hp.2.1, hp.2.2.1⟩

/-- Witness for C10: `update` on `sWalk2` with `dt = 0` completes without
crossing a frame boundary, so the preserved-fields conclusion holds at
`s2 = sWalk2` itself. -/
theorem c10_play_pause_toggle_only_is_playing_witness :
    sWalk2.update infoWalk 0 1 = some (sWalk2, false) ∧
    (sWalk2.play = { sWalk2 with is_playing := true } ∧
      sWalk2.pause = { sWalk2 with is_playing := false } ∧
      sWalk2.toggle = { sWalk2 with is_playing := !sWalk2.is_playing } ∧
      (sWalk2.next_frame infoWalk).tag = sWalk2.tag ∧
      (sWalk2.next_frame infoWalk).tag_changed = sWalk2.tag_changed ∧
      sWalk2.tag = sWalk2.tag ∧ sWalk2.tag_changed = sWalk2.tag_changed) :=
  ⟨rfl, c10_play_pause_toggle_only_is_playing sWalk2 infoWalk 0 1 sWalk2 false rfl⟩

/-! ## C6 -/

theorem stepIter_te (info : AsepriteInfo) :
    ∀ (n : Nat) (s : AsepriteAnimation) (x : Nat),
      stepIter info n { s with time_elapsed := x } =
        { stepIter info n s with time_elapsed := x } := by
  intro n
  induction n with
  | zero => intro s x; rfl
  | succ m ih =>
    intro s x
    show stepIter info m
        (AsepriteAnimation.next_frame { s with time_elapsed := x } info) = _
    rw [next_frame_te, ih]
    rfl

theorem stepIter_add (info : AsepriteInfo) :
    ∀ (b a : Nat) (s : AsepriteAnimation),
      stepIter info a (stepIter info b s) = stepIter info (b + a) s := by
  intro b
  induction b with
  | zero =>
    intro a s
    rw [Nat.zero_add]
    rfl
  | succ m ih =>
    intro a s
    show stepIter info a (stepIter info m (s.next_frame info)) = _
    rw [ih]
    have h : m + 1 + a = (m + a) + 1 := by omega
    rw [h]
    rfl

/-- Normal form of the catch-up loop on a table of uniform positive frame
duration `d`: it performs exactly `time_elapsed / d` steps and leaves
`time_elapsed % d` behind. -/
theorem updateLoop_uniform (info : AsepriteInfo) (d : Nat)
    (hU : ∀ i, info.duration i = d) (hd : 0 < d) :
    ∀ (fuel : Nat) (s : AsepriteAnimation) (b : Bool),
      s.time_elapsed / d < fuel →
      AsepriteAnimation.updateLoop info fuel s b =
        some ({ stepIter info (s.time_elapsed / d) s with
                  time_elapsed := s.time_elapsed % d },
              b || decide (0 < s.time_elapsed / d)) := by
  intro fuel
  induction fuel with
  | zero => intro s b h; exact absurd h (Nat.not_lt_zero _)
  | succ n ih =>
    intro s b h
    have hcfd : s.current_frame_duration info = d := hU s.current_frame
    unfold AsepriteAnimation.updateLoop
    by_cases hc : d ≤ s.time_elapsed
    · have hcond : s.current_frame_duration info ≤ s.time_elapsed := by
        rw [hcfd]; exact hc
      rw [if_pos hcond]
      dsimp only
      have hrw : ({ s with time_elapsed :=
          s.time_elapsed - s.current_frame_duration info } : AsepriteAnimation) =
          { s with time_elapsed := s.time_elapsed - d } := by rw [hcfd]
      rw [hrw, next_frame_te]
      have hdiv : s.time_elapsed / d = (s.time_elapsed - d) / d + 1 :=
        Nat.div_eq_sub_div hd hc
      have hfuel2 :
          ({ s.next_frame info with
              time_elapsed := s.time_elapsed - d } : AsepriteAnimation).time_elapsed / d < n := by
        dsimp only
        omega
      rw [ih _ true hfuel2]
      dsimp only
      rw [stepIter_te]
      have hmod : (s.time_elapsed - d) % d = s.time_elapsed % d :=
        (Nat.mod_eq_sub_mod hc).symm
      rw [hmod, hdiv]
      have hstep : stepIter info ((s.time_elapsed - d) / d) (s.next_frame info) =
          stepIter info ((s.time_elapsed - d) / d + 1) s := rfl
      rw [hstep]
      have hbool : (b || decide (0 < (s.time_elapsed - d) / d + 1)) = true := by
        simp
      rw [hbool]
      rfl
    · have hcond : ¬ s.current_frame_duration info ≤ s.time_elapsed := by
        rw [hcfd]; exact hc
      rw [if_neg hcond]
      have hlt : s.time_elapsed < d := by omega
      have h0 : s.time_elapsed / d = 0 := Nat.div_eq_of_lt hlt
      have h1 : s.time_elapsed % d = s.time_elapsed := Nat.mod_eq_of_lt hlt
      rw [h0, h1]
      have hb : (b || decide (0 < 0)) = b := by simp
      rw [hb]
      rfl

/-- Normal form of one `update` call on a uniform table. -/
theorem update_uniform (info : AsepriteInfo) (d : Nat)
    (hU : ∀ i, info.duration i = d) (hd : 0 < d)
    (s : AsepriteAnimation) (dt fuel : Nat)
    (hfuel : (s.time_elapsed + dt) / d < fuel) :
    s.update info dt fuel =
      some ({ stepIter info ((s.time_elapsed + dt) / d) s with
                time_elapsed := (s.time_elapsed + dt) % d },
            decide (0 < (s.time_elapsed + dt) / d)) := by
  unfold AsepriteAnimation.update
  rw [updateLoop_uniform info d hU hd fuel _ false (by dsimp only; exact hfuel)]
  dsimp only
  rw [stepIter_te, Bool.false_or]

/-- Normal form of `k ≥ 1` sequential uniform `update` calls. -/
theorem updates_uniform (info : AsepriteInfo) (d : Nat)
    (hU : ∀ i, info.duration i = d) (hd : 0 < d) :
    ∀ (n : Nat) (s : AsepriteAnimation),
      updates info d (n + 1) s =
        some { stepIter info (s.time_elapsed / d + (n + 1)) s with
                 time_elapsed := s.time_elapsed % d } := by
  intro n
  induction n with
  | zero =>
    intro s
    unfold updates
    rw [update_uniform info d hU hd s d _
      (Nat.lt_succ_of_le (Nat.div_le_self _ _))]
    dsimp only
    rw [Nat.add_div_right _ hd, Nat.add_mod_right]
    rfl
  | succ m ih =>
    intro s
    show (match s.update info d (s.time_elapsed + d + 1) with
      | some (s2, _) => updates info d (m + 1) s2
      | none => none) = _
    rw [update_uniform info d hU hd s d _
      (Nat.lt_succ_of_le (Nat.div_le_self _ _))]
    dsimp only
    rw [ih]
    dsimp only
    rw [Nat.add_div_right _ hd, Nat.add_mod_right]
    have hte : s.time_elapsed % d % d = s.time_elapsed % d :=
      Nat.mod_eq_of_lt (Nat.mod_lt _ hd)
    have hq : s.time_elapsed % d / d = 0 :=
      Nat.div_eq_of_lt (Nat.mod_lt _ hd)
    rw [hq, hte, stepIter_te, stepIter_add]
    have hidx : s.time_elapsed / d + 1 + (0 + (m + 1)) =
        s.time_elapsed / d + (m + 1 + 1) := by omega
    rw [hidx]

/-- C6: on a table of uniform positive duration `d`, one `update` call
with `dt = k * d` reaches exactly the state that `k` sequential `update`
calls with `dt = d` reach (same frame, same direction bias, same
remainder). -/
theorem c6_catch_up_equivalence (info : AsepriteInfo) (d k : Nat)
    (s : AsepriteAnimation) (hU : ∀ i, info.duration i = d) (hd : 0 < d)
    (hk : 1 ≤ k) :
    ∃ s2 b2, s.update info (k * d) (s.time_elapsed + k * d + 1) = some (s2, b2) ∧
      updates info d k s = some s2 := by
  have hfuel : (s.time_elapsed + k * d) / d < s.time_elapsed + k * d + 1 :=
    Nat.lt_succ_of_le (Nat.div_le_self _ _)
  refine ⟨_, _, update_uniform info d hU hd s (k * d) _ hfuel, ?_⟩
  obtain ⟨n, rfl⟩ : ∃ n, k = n + 1 := ⟨k - 1, by omega⟩
  rw [updates_uniform info d hU hd n s]
  rw [Nat.add_mul_div_right _ _ hd, Nat.add_mul_mod_self_right]

/-- Witness for C6 at `d = 100`, `k = 2`, clock `sPaused` on `infoTwo`. -/
theorem c6_catch_up_equivalence_witness :
    (∀ i, 0 < infoTwo.duration i) ∧
    (∃ s2 b2,
      sPaused.update infoTwo (2 * 100) (sPaused.time_elapsed + 2 * 100 + 1) =
        some (s2, b2) ∧
      updates infoTwo 100 2 sPaused = some s2) :=
  ⟨fun _ => Nat.succ_pos 99,
    c6_catch_up_equivalence infoTwo 100 2 sPaused (fun _ => rfl) (by decide)
      (by decide)⟩

/-! ## C4 -/

/-- Core step lemma for the frame invariant: if the clock's resolved tag
range is non-empty, `u16`-sized and (for PingPong) at least two frames
wide, then a `next_frame` step from inside the range stays inside it. -/
theorem next_frame_cur_in_range (info : AsepriteInfo) (s : AsepriteAnimation)
    (t : String) (r : TagRange) (hs : s.tag = some t)
    (hres : info.tags t = some r)
    (hlt : r.start < r.end_) (h16 : r.end_ < 65536)
    (hpp : r.direction = AsepriteAnimationDirection.PingPong →
      r.start + 2 ≤ r.end_)
    (h1 : r.start ≤ s.current_frame) (h2 : s.current_frame < r.end_) :
    r.start ≤ (s.next_frame info).current_frame ∧
      (s.next_frame info).current_frame < r.end_ := by
  unfold AsepriteAnimation.next_frame
  rw [hs]
  dsimp only
  rw [hres]
  dsimp only
  cases hdir : r.direction with
  | Forward =>
    dsimp only
    by_cases hb : rangeContains r (toU16 (s.current_frame + 1)) = true
    · rw [if_pos hb]
      have hid : toU16 (s.current_frame + 1) = s.current_frame + 1 :=
        Nat.mod_eq_of_lt (by omega)
      have hc := of_decide_eq_true hb
      rw [hid] at hc
      refine ⟨?_, ?_⟩ <;> (try dsimp only) <;> omega
    · rw [if_neg hb]
      refine ⟨?_, ?_⟩ <;> (try dsimp only) <;> omega
  | Reverse =>
    dsimp only
    cases hcs : checkedSub s.current_frame 1 with
    | none =>
      refine ⟨?_, ?_⟩ <;> (try dsimp only) <;> omega
    | some nf =>
      have hnf : 1 ≤ s.current_frame ∧ nf = s.current_frame - 1 := by
        unfold checkedSub at hcs
        by_cases hone : 1 ≤ s.current_frame
        · rw [if_pos hone] at hcs
          exact ⟨hone, (Option.some.inj hcs).symm⟩
        · rw [if_neg hone] at hcs
          exact Option.noConfusion hcs
      dsimp only
      by_cases hb : rangeContains r (toU16 nf) = true
      · rw [if_pos hb]
        have hid : toU16 nf = nf := Nat.mod_eq_of_lt (by omega)
        have hc := of_decide_eq_true hb
        rw [hid] at hc
        refine ⟨?_, ?_⟩ <;> (try dsimp only) <;> omega
      · rw [if_neg hb]
        refine ⟨?_, ?_⟩ <;> (try dsimp only) <;> omega
  | PingPong =>
    have hpp2 : r.start + 2 ≤ r.end_ := hpp hdir
    dsimp only
    by_cases hf : s.forward = true
    · rw [if_pos hf]
      by_cases hb : rangeContains r (toU16 (s.current_frame + 1)) = true
      · rw [if_pos hb]
        have hid : toU16 (s.current_frame + 1) = s.current_frame + 1 :=
          Nat.mod_eq_of_lt (by omega)
        have hc := of_decide_eq_true hb
        rw [hid] at hc
        refine ⟨?_, ?_⟩ <;> (try dsimp only) <;> omega
      · rw [if_neg hb]
        refine ⟨?_, ?_⟩ <;> (try dsimp only) <;> omega
    · rw [if_neg hf]
      cases hcs : checkedSub s.current_frame 1 with
      | none =>
        have hzero : s.current_frame = 0 := by
          unfold checkedSub at hcs
          by_cases hone : 1 ≤ s.current_frame
          · rw [if_pos hone] at hcs
            exact Option.noConfusion hcs
          · omega
        refine ⟨?_, ?_⟩ <;> (try dsimp only) <;> omega
      | some nf =>
        have hnf : 1 ≤ s.current_frame ∧ nf = s.current_frame - 1 := by
          unfold checkedSub at hcs
          by_cases hone : 1 ≤ s.current_frame
          · rw [if_pos hone] at hcs
            exact ⟨hone, (Option.some.inj hcs).symm⟩
          · rw [if_neg hone] at hcs
            exact Option.noConfusion hcs
        dsimp only
        by_cases hb : rangeContains r (toU16 nf) = true
        · rw [if_pos hb]
          have hid : toU16 nf = nf := Nat.mod_eq_of_lt (by omega)
          have hc := of_decide_eq_true hb
          rw [hid] at hc
          refine ⟨?_, ?_⟩ <;> (try dsimp only) <;> omega
        · rw [if_neg hb]
          have hid : toU16 nf = nf := Nat.mod_eq_of_lt (by omega)
          have hrs : nf < r.start := by
            by_contra hx
            push_neg at hx
            refine hb ?_
            rw [hid]
            exact decide_eq_true ⟨hx, by omega⟩
          refine ⟨?_, ?_⟩ <;> (try dsimp only) <;> omega

/-- One `next_frame` step preserves the frame invariant on a `GoodInfo`
table. -/
theorem next_frame_inv (info : AsepriteInfo) (hg : GoodInfo info)
    (s : AsepriteAnimation) (h : Inv info s) : Inv info (s.next_frame info) := by
  obtain ⟨hfc, htags⟩ := hg
  obtain ⟨hcur, htag⟩ := h
  cases hs : s.tag with
  | none =>
    constructor
    · have hstep : (s.next_frame info).current_frame =
          (s.current_frame + 1) % info.frame_count := by
        unfold AsepriteAnimation.next_frame
        rw [hs]
      rw [hstep]
      exact Nat.mod_lt _ hfc
    · intro t2 r2 ht2 hr2
      rw [next_frame_tag, hs] at ht2
      exact Option.noConfusion ht2
  | some t =>
    cases hres : info.tags t with
    | none =>
      have hnop : s.next_frame info = s := by
        unfold AsepriteAnimation.next_frame
        rw [hs]
        dsimp only
        rw [hres]
      rw [hnop]
      exact ⟨hcur, htag⟩
    | some r =>
      obtain ⟨hlt, hef, h16, hpp⟩ := htags t r hres
      obtain ⟨hA, hB⟩ := htag t r hs hres
      have hr := next_frame_cur_in_range info s t r hs hres hlt h16 hpp hA hB
      refine ⟨by omega, ?_⟩
      intro t2 r2 ht2 hr2
      rw [next_frame_tag, hs] at ht2
      injection ht2 with hte
      subst hte
      rw [hres] at hr2
      injection hr2 with hre
      subst hre
      exact hr

/-- The catch-up loop preserves the frame invariant. -/
theorem updateLoop_inv (info : AsepriteInfo) (hg : GoodInfo info) :
    ∀ (fuel : Nat) (s : AsepriteAnimation) (b : Bool)
      (s2 : AsepriteAnimation) (b2 : Bool),
      AsepriteAnimation.updateLoop info fuel s b = some (s2, b2) →
      Inv info s → Inv info s2 := by
  intro fuel
  induction fuel with
  | zero =>
    intro s b s2 b2 hupd hinv
    exact absurd hupd (by simp [AsepriteAnimation.updateLoop])
  | succ n ih =>
    intro s b s2 b2 hupd hinv
    unfold AsepriteAnimation.updateLoop at hupd
    by_cases hc : s.current_frame_duration info ≤ s.time_elapsed
    · rw [if_pos hc] at hupd
      dsimp only at hupd
      refine ih _ _ _ _ hupd ?_
      exact next_frame_inv info ⟨hg.1, hg.2⟩ _ hinv
    · rw [if_neg hc] at hupd
      simp only [Option.some.injEq, Prod.mk.injEq] at hupd
      obtain ⟨rfl, rfl⟩ := hupd
      exact hinv

/-- C4 counterexample: on `infoPingOne` — whose `"p"` tag range
`[2, 3)` satisfies every assumption of the claim (`frame_count = 3 ≥ 1`,
`start < end ≤ frame_count`) — the state `sBadPing` with
`current_frame = 3` is reachable (seeded start, then one completed
`update`), and `3` is outside both the table and the range. -/
theorem c4_counterexample_singleton_pingpong :
    (1 ≤ infoPingOne.frame_count ∧
      infoPingOne.tags "p" = some ⟨2, 3, .PingPong⟩ ∧
      (2 : Nat) < 3 ∧ 3 ≤ infoPingOne.frame_count) ∧
    Reachable infoPingOne sBadPing ∧
    ¬ (sBadPing.current_frame < infoPingOne.frame_count) ∧
    ¬ (sBadPing.current_frame < 3) := by
  refine ⟨⟨by decide, rfl, by decide, by decide⟩, ?_, by decide, by decide⟩
  exact Reachable.step_update _ sBadPing 100 2 true
    (Reachable.init_tagged "p" ⟨2, 3, .PingPong⟩ rfl) rfl

/-- C4 amended: the invariant `0 ≤ current_frame < frame_count`,
and `start ≤ current_frame < end` for a resolved active tag, holds for
all reachable states **provided additionally** that every PingPong tag
range spans at least two frames (`start + 2 ≤ end`); range ends fitting
in `u16` is guaranteed by the source type `Range<u16>`.  (With a
single-frame PingPong range the reverse-biased step lands on `end`, as
the counterexample shows.) -/
theorem c4_invariant_amended (info : AsepriteInfo) (hg : GoodInfo info)
    (s : AsepriteAnimation) (hr : Reachable info s) : Inv info s := by
  induction hr with
  | init_untagged =>
    refine ⟨hg.1, ?_⟩
    intro t r ht hr2
    exact Option.noConfusion ht
  | init_tagged t r h =>
    obtain ⟨hlt, hef, h16, hpp⟩ := hg.2 t r h
    refine ⟨by dsimp only; omega, ?_⟩
    intro t2 r2 ht2 hr2
    dsimp only at ht2 ⊢
    injection ht2 with hte
    subst hte
    rw [h] at hr2
    injection hr2 with hre
    subst hre
    exact ⟨le_refl _, hlt⟩
  | step_play s hs ih => exact ih
  | step_pause s hs ih => exact ih
  | step_toggle s hs ih => exact ih
  | step_update s s2 dt fuel b hs hupd ih =>
    unfold AsepriteAnimation.update at hupd
    exact updateLoop_inv info hg _ _ _ _ _ hupd ih

/-- Witness for the amended C4 on the tagless table `infoTwo` at the
freshly constructed clock `sPaused`. -/
theorem c4_invariant_amended_witness :
    GoodInfo infoTwo ∧ Reachable infoTwo sPaused ∧ Inv infoTwo sPaused := by
  have hg : GoodInfo infoTwo := ⟨by decide, fun t r h => Option.noConfusion h⟩
  exact ⟨hg, Reachable.init_untagged,
    c4_invariant_amended infoTwo hg sPaused Reachable.init_untagged⟩

end BevyAseprite
